import Mathlib

/-!
Verification development for the marsh (un)marshaling engine.

This file shallowly embeds the core data structures and algorithms of the
engine and proves properties about them:

* `PO`   — `marsh.utils.PriorityOrder` (priority-ordered sequence with
           explicit pairwise relations).
* `SD`   — `marsh.utils.SafeDict` (dictionary tolerating unhashable keys).
* `MC`   — `marsh.utils.cache` (safe LRU memoization decorator).
* `Reg`  — `marsh.schema.core.base.SchemaRegistry.match` and selections.
* `Eng`  — `marsh.schema.core.unmarshal` resolution engine caches
           (`UnmarshalSchemaMeta._build`, `_cached_build`, registry match
           cache, per-thread recursive cache) and the cache effects of the
           two registration paths.
* `Rec`  — a concrete instantiation of the recursion-safe resolution
           algorithm on a self-referential descriptor (a dataclass-like
           `Node {value : int, next : Optional[Node]}`), with unmarshaling.
* `NS`   — `marsh.schema.types.namespace.NamespaceUnmarshalSchema.unmarshal`
           discriminator dispatch.

Python machine integers are unbounded, so `Int`/`Nat` model them exactly.
Python object identity of freshly allocated `_WrappedValue` wrappers is
modeled by the wrapper's globally unique allocation index (the source's
`_WrappedValue._counter`), which the source itself stores in `index`.
-/

namespace PO

/-- Errors raised by `PriorityOrder`.  `circular` models the
`ValueError('circular ...')` raised for contradictory relative priorities
(both in `_RelativePriorityContainer.__init__` and in `get_relation`);
`alreadyExists` models `ValueError(f'{wrapped} already exists.')` in
`PriorityOrder.add`. -/
inductive PErr where
  | circular
  | alreadyExists
deriving DecidableEq, Repr

/-- Model of `PriorityOrder._RelativePriorityContainer`.  Idents are the
hashes of the stored values; hashing is modeled as the identity on `Nat`
(distinct values hash distinctly). -/
structure RelPrio where
  ident : Nat
  lower : List Nat
  higher : List Nat
deriving DecidableEq, Repr

/-- Model of `_RelativePriorityContainer.get_relation`: returns
`(lower, higher)` and raises when both hold (circular relative priorities). -/
def getRelation (a b : RelPrio) : Except PErr (Bool × Bool) :=
  let lo := b.lower.contains a.ident || a.higher.contains b.ident
  let hi := b.higher.contains a.ident || a.lower.contains b.ident
  if lo && hi then .error .circular else .ok (lo, hi)

/-- Model of `PriorityOrder._WrappedValue`.  `index` is the unique
allocation counter value, which also models Python object identity of the
wrapper. -/
structure WrappedValue where
  value : Nat
  priority : Int
  rel : RelPrio
  index : Nat
deriving DecidableEq, Repr

/-- Model of `PriorityOrder`: the wrapped values in resolved order plus the
class-level allocation counter `_WrappedValue._counter`. -/
structure PriorityOrder where
  values : List WrappedValue
  counter : Nat
deriving DecidableEq, Repr

def empty : PriorityOrder := ⟨[], 0⟩

/-- `list.insert(idx, x)` of Python: insert at `idx`, clamping to the end. -/
def insertAt {α : Type} : Nat → α → List α → List α
  | 0, a, l => a :: l
  | _ + 1, a, [] => [a]
  | n + 1, a, x :: l => x :: insertAt n a l

/-- The insertion-index scan of `PriorityOrder.add`:

```
idx = 0
for i, position in enumerate(self._values):
    if wrapped.relative_priority > position.relative_priority:
        break
    if (wrapped.relative_priority < position.relative_priority
        or wrapped.priority < position.priority):
        idx = i + 1
self._values.insert(idx, wrapped)
```

`i` and `idx` are the loop accumulators.  `__gt__`/`__lt__` both go through
`get_relation`, which can raise. -/
def scanLoop (w : WrappedValue) : List WrappedValue → Nat → Nat → Except PErr Nat
  | [], _, idx => .ok idx
  | v :: rest, i, idx =>
    match getRelation w.rel v.rel with
    | .error e => .error e
    | .ok rel =>
      if rel.2 then .ok idx
      else if rel.1 || decide (w.priority < v.priority) then
        scanLoop w rest (i + 1) (i + 1)
      else
        scanLoop w rest (i + 1) idx

/-- Construction of the `_WrappedValue` for a new entry (allocates the next
counter value as its identity). -/
def mkWrapped (p : PriorityOrder) (v : Nat) (priority : Int)
    (lo hi : List Nat) : WrappedValue :=
  ⟨v, priority, ⟨v, lo, hi⟩, p.counter⟩

/-- Model of `PriorityOrder.add`.

The duplicate check of the source is

```
for i in range(len(self._values)):
    if self._values[i] == wrapped:
        ...
```

`_WrappedValue` defines no `__eq__`, so `==` falls back to Python object
identity; `wrapped` is freshly allocated, which the model renders as the
fresh allocation index `p.counter`.  The check is kept verbatim here (the
lemma `add_dup_dead` shows it can never fire on well-formed states). -/
def add (p : PriorityOrder) (v : Nat) (priority : Int)
    (lo hi : List Nat) (replace : Bool) : Except PErr PriorityOrder :=
  if lo.any (fun x => hi.contains x) then .error .circular
  else
    let w := mkWrapped p v priority lo hi
    match p.values.findIdx? (fun u => u.index == w.index) with
    | some i =>
      if replace then
        match scanLoop w (p.values.eraseIdx i) 0 0 with
        | .ok k => .ok ⟨insertAt k w (p.values.eraseIdx i), p.counter + 1⟩
        | .error e => .error e
      else .error .alreadyExists
    | none =>
      match scanLoop w p.values 0 0 with
      | .ok k => .ok ⟨insertAt k w p.values, p.counter + 1⟩
      | .error e => .error e

/-- Iteration order of the container (the raw values). -/
def toValues (p : PriorityOrder) : List Nat := p.values.map (·.value)

/-- `add` with no explicit relations and `replace=False` (the common
registration path). -/
def addSimple (p : PriorityOrder) (v : Nat) (priority : Int) :
    Except PErr PriorityOrder :=
  add p v priority [] [] false

/-- The strict order that characterizes relation-free `PriorityOrder`
sequences: higher base priority first; on equal priority the more recently
allocated entry first. -/
abbrev lexGT (u v : WrappedValue) : Prop :=
  u.priority > v.priority ∨ (u.priority = v.priority ∧ u.index > v.index)

/-- Well-formedness invariant for relation-free priority orders: allocation
indices are below the counter, the sequence is strictly sorted by `lexGT`,
and no entry carries explicit relations. -/
abbrev PInv (p : PriorityOrder) : Prop :=
  (∀ w ∈ p.values, w.index < p.counter) ∧
  p.values.Pairwise lexGT ∧
  (∀ w ∈ p.values, w.rel.lower = [] ∧ w.rel.higher = [])

/-- Reference insertion function: walk past strictly higher priorities,
then insert (in particular, before all entries of equal priority). -/
def insSimple (w : WrappedValue) : List WrappedValue → List WrappedValue
  | [] => [w]
  | v :: rest =>
    if w.priority < v.priority then v :: insSimple w rest else w :: v :: rest

end PO

namespace SD

/-- Keys of the `SafeDict` model: an identity plus whether Python's `hash`
succeeds on the key. -/
structure UKey where
  kid : Nat
  hashable : Bool
deriving DecidableEq, Repr

/-- Model of `marsh.utils.SafeDict`: the backing `dict` for hashable keys
(an association list with unique keys, insertion-ordered like a Python
dict), the list of unhashable entries, and the interleaving order. -/
structure SafeDict (V : Type) where
  hashCache : List (UKey × V)
  unhashCache : List (UKey × V)
  order : List (Bool × Nat)
deriving Repr

def emptyDict {V : Type} : SafeDict V := ⟨[], [], []⟩

/-- Python `dict.__setitem__`: update in place when the key exists,
otherwise append. -/
def dictSet {V : Type} (l : List (UKey × V)) (k : UKey) (v : V) :
    List (UKey × V) :=
  if l.any (fun p => p.1 = k) then
    l.map (fun p => if p.1 = k then (k, v) else p)
  else l ++ [(k, v)]

/-- Association-list lookup (first match). -/
def alist {κ V : Type} [DecidableEq κ] : List (κ × V) → κ → Option V
  | [], _ => none
  | (k, v) :: rest, q => if k = q then some v else alist rest q

/-- Model of `SafeDict.__setitem__`.

Hashable path: store into the dict; track interleaving order only when
unhashable entries exist.  Unhashable path (a `TypeError` was raised by the
dict): the source is

```
for i, (k, _) in enumerate(reversed(self._unhashable_cache), start=1):
    if k == key:
        self._unhashable_cache[-i] = (key, value)
else:
    self._order.append((False, len(self._unhashable_cache)))
    self._unhashable_cache.append((key, value))
```

The `for` loop contains no `break`, so the `else` suite runs on EVERY
call: existing entries for the key are updated in place AND a fresh entry
is appended.  The model reproduces that faithfully. -/
def setItem {V : Type} (d : SafeDict V) (k : UKey) (v : V) : SafeDict V :=
  if k.hashable then
    let prevLen := d.hashCache.length
    let h := dictSet d.hashCache k v
    if d.unhashCache.isEmpty then { d with hashCache := h }
    else if prevLen < h.length then
      { d with hashCache := h, order := d.order ++ [(true, prevLen)] }
    else { d with hashCache := h }
  else
    let order0 :=
      if d.unhashCache.isEmpty then
        (List.range d.hashCache.length).map (fun i => (true, i))
      else d.order
    let u := d.unhashCache.map (fun p => if p.1 = k then (k, v) else p)
    { d with
      order := order0 ++ [(false, d.unhashCache.length)],
      unhashCache := u ++ [(k, v)] }

/-- Model of `SafeDict.__getitem__`: dict lookup for hashable keys; for
unhashable keys, scan `reversed(self._unhashable_cache)` for an equal key.
`none` models the final `raise KeyError(key)`. -/
def getItem {V : Type} (d : SafeDict V) (k : UKey) : Option V :=
  if k.hashable then alist d.hashCache k
  else (d.unhashCache.reverse.find? (fun p => p.1 = k)).map (·.2)

/-- Model of `SafeDict.__len__`. -/
def lenD {V : Type} (d : SafeDict V) : Nat :=
  d.hashCache.length + d.unhashCache.length

/-- Model of `SafeDict.__iter__` (forward `_ordered_iter`). -/
def iterKeys {V : Type} (d : SafeDict V) : List UKey :=
  if d.unhashCache.isEmpty then d.hashCache.map (·.1)
  else
    d.order.filterMap (fun p =>
      if p.1 then (d.hashCache.map (·.1)).get? p.2
      else (d.unhashCache.map (·.1)).get? p.2)

end SD

namespace MC

/-- Result of calling a Python function: a value, a `TypeError`, or some
other exception. -/
inductive PyRes (β : Type) where
  | ok (b : β)
  | typeError
  | otherError
deriving DecidableEq, Repr

/-- The state and behavior of `functools.lru_cache(maxsize=None)` wrapping
a pure function `f` (`marsh.utils.cache` with `binding=None`): if the
arguments are not hashable, key construction raises `TypeError`; on a hit
the stored value is returned; on a miss `f` runs and a successful result is
stored (exceptions are not cached). -/
def lruCall {α β : Type} [DecidableEq α] (f : α → PyRes β) (hashable : α → Bool)
    (st : List (α × β)) (a : α) : PyRes β × List (α × β) :=
  if hashable a then
    match SD.alist st a with
    | some b => (.ok b, st)
    | none =>
      match f a with
      | .ok b => (.ok b, st ++ [(a, b)])
      | r => (r, st)
  else (.typeError, st)

/-- Model of the `safe=True` wrapper of `marsh.utils.cache`:

```
def delegating_func(*args, **kwargs):
    try:
        return unsafe_delegating_func(*args, **kwargs)
    except TypeError:
        return func(*args, **kwargs)
```

a `TypeError` (from key construction or from `f` itself) bypasses the cache
and calls `f` directly. -/
def safeCall {α β : Type} [DecidableEq α] (f : α → PyRes β) (hashable : α → Bool)
    (st : List (α × β)) (a : α) : PyRes β × List (α × β) :=
  match lruCall f hashable st a with
  | (.typeError, _) => (f a, st)
  | r => r

/-- A cache state is consistent with `f` when every stored entry is the
result of a successful call of `f`. -/
def Consistent {α β : Type} (f : α → PyRes β) (st : List (α × β)) : Prop :=
  ∀ p ∈ st, f p.1 = .ok p.2

end MC

namespace Reg

/-- Result of calling a schema template's `match(value)` classmethod: a
boolean, a `TypeError` (swallowed by `SchemaRegistry.match`), or any other
exception (propagated). -/
inductive MatchRes where
  | ok (b : Bool)
  | typeErr
  | otherErr
deriving DecidableEq, Repr

/-- A registered schema template: an identity, the static wrapper flag
(`issubclass(schema, WrapperSchema)`), the base priority it was registered
with, and its `match` predicate over descriptors (descriptors are modeled
as `Nat`). -/
structure Template where
  tid : Nat
  wrapper : Bool
  priority : Int
  matchD : Nat → MatchRes

/-- Failure of `SchemaRegistry.match`: `noMatch` models raising the
registry's configured error type (`raise self.error(...)`); `raised` models
a non-`TypeError` exception escaping from a template's `match`. -/
inductive MatchErr where
  | noMatch
  | raised
deriving DecidableEq, Repr

/-- The loop of `SchemaRegistry.match` with the accumulated selection:

```
schemas = SchemaSelection()
for schema in self.priority:
    try:
        if schema.match(value):
            schemas.append(schema)
            if not issubclass(schema, WrapperSchema):
                return schemas
    except TypeError:
        pass
raise self.error(f'no schema matched value: {value}')
``` -/
def matchLoop (v : Nat) : List Template → List Template →
    Except MatchErr (List Template)
  | [], _ => .error .noMatch
  | t :: rest, acc =>
    match t.matchD v with
    | .typeErr => matchLoop v rest acc
    | .otherErr => .error .raised
    | .ok false => matchLoop v rest acc
    | .ok true =>
      if t.wrapper then matchLoop v rest (acc ++ [t]) else .ok (acc ++ [t])

/-- Model of `SchemaRegistry.match`; `reg` is the template sequence in
resolved `PriorityOrder` iteration order. -/
def registryMatch (reg : List Template) (v : Nat) :
    Except MatchErr (List Template) :=
  matchLoop v reg []

/-- Whether a template's `match` returned `True` for `v`. -/
def isMatchTrue (t : Template) (v : Nat) : Bool :=
  match t.matchD v with
  | .ok true => true
  | _ => false

/-- A wrapper template with priority 5 matching every descriptor (the `T2`
of the spec's scenario). -/
def tWrapAll : Template := ⟨2, true, 5, fun _ => .ok true⟩

/-- A non-wrapper template with priority 0 matching every descriptor (the
`T1` of the spec's scenario). -/
def tTermAll : Template := ⟨3, false, 0, fun _ => .ok true⟩

end Reg

namespace Eng

open Reg

/-- A matched selection (ordered template chain). -/
abbrev Selection := List Template

/-- The handler produced for a descriptor.  `built sel` models
`result[1:].build(value, ...)` in `UnmarshalSchemaMeta._build` (the real
handler chain); `placeholder sel` models the handler built from the stored
selection `[RecursiveReferenceUnmarshalSchema] + sel` on a re-entrant hit
of the in-progress map. -/
inductive Handler where
  | built (sel : Selection)
  | placeholder (sel : Selection)

/-- The cache state of the unmarshal resolution engine, for one execution
context and non-`Union`, hashable descriptors:

* `registry`   — the registered templates in priority order;
* `matchCache` — the `marsh.schema.UnmarshalSchema.registry.match` cache;
* `buildCache` — the `marsh.schema.UnmarshalSchema.__new__` cache of
  `_cached_build` (the resolved-handler cache);
* `recCache`   — the per-thread recursive (in-progress) cache
  `_recursive_cache[threading.get_ident()]`. -/
structure EngState where
  registry : List Template
  matchCache : List (Nat × Selection)
  buildCache : List (Nat × Handler)
  recCache : List (Nat × Selection)

/-- `UnmarshalSchemaRegistry.match`: consult the match cache, else run
`SchemaRegistry.match` and store the result. -/
def cachedMatch (st : EngState) (v : Nat) :
    Except MatchErr (Selection × EngState) :=
  match SD.alist st.matchCache v with
  | some sel => .ok (sel, st)
  | none =>
    match registryMatch st.registry v with
    | .ok sel =>
      .ok (sel, { st with matchCache := st.matchCache ++ [(v, sel)] })
    | .error e => .error e

/-- Model of `UnmarshalSchemaMeta._build`: on a hit of the in-progress map
return the placeholder handler built from the stored selection; otherwise
match, record the selection in the in-progress map BEFORE building, and
return the real handler.  (The stored Python selection is
`[RecursiveReferenceUnmarshalSchema] + sel`; the model stores `sel` and
keeps the placeholder marker in the `Handler` constructor.)  Nothing is
ever removed from `recCache` here, exactly as in the source. -/
def buildStep (st : EngState) (v : Nat) :
    Except MatchErr (Handler × EngState) :=
  match SD.alist st.recCache v with
  | some sel => .ok (.placeholder sel, st)
  | none =>
    match cachedMatch st v with
    | .error e => .error e
    | .ok (sel, st₁) =>
      .ok (.built sel, { st₁ with recCache := st₁.recCache ++ [(v, sel)] })

/-- Model of `UnmarshalSchema.__call__` for a non-`Union` hashable
descriptor: `_cached_build` consults the resolved-handler cache and on a
miss delegates to `_build`, storing the result. -/
def resolve (st : EngState) (v : Nat) :
    Except MatchErr (Handler × EngState) :=
  match SD.alist st.buildCache v with
  | some h => .ok (h, st)
  | none =>
    match buildStep st v with
    | .error e => .error e
    | .ok (h, st₁) =>
      .ok (h, { st₁ with buildCache := st₁.buildCache ++ [(v, h)] })

/-- Model of `UnmarshalSchemaRegistry.register` for a template with no
explicit relations: `self.cache_clear()` (which clears ONLY the registry
match cache, see `UnmarshalSchemaRegistry.cache_clear`) followed by
`self.priority.add(...)`.  The insertion position matches the relation-free
`PriorityOrder.add` behavior (before existing entries of equal or lower
priority). -/
def registerTemplate (st : EngState) (t : Template) : EngState :=
  { st with
    matchCache := [],
    registry :=
      PO.insertAt (st.registry.countP (fun u => decide (t.priority < u.priority)))
        t st.registry }

/-- The cache effect of `Namespace.register`, which calls
`marsh.schema.UnmarshalSchema.cache_clear()` =
`UnmarshalSchemaMeta.cache_clear`: clears the registry match cache, the
resolved-handler cache AND the recursive caches (the `type_cache` is not
modeled). -/
def namespaceRegisterCaches (st : EngState) : EngState :=
  { st with matchCache := [], buildCache := [], recCache := [] }

/-- A non-wrapper template with priority 0 matching every descriptor. -/
def tLow : Template := ⟨0, false, 0, fun _ => .ok true⟩

/-- A non-wrapper template with priority 10 matching every descriptor. -/
def tHigh : Template := ⟨1, false, 10, fun _ => .ok true⟩

/-- Initial engine state: only `tLow` registered, all caches empty. -/
def st0 : EngState := ⟨[tLow], [], [], []⟩

/-- The engine state after `resolve st0 7`. -/
def st1 : EngState :=
  ⟨[tLow], [(7, [tLow])], [(7, .built [tLow])], [(7, [tLow])]⟩

/-- The engine state after registering `tHigh` through the registry path. -/
def st2 : EngState :=
  ⟨[tHigh, tLow], [], [(7, .built [tLow])], [(7, [tLow])]⟩

end Eng

namespace Rec

/-- The descriptors of the concrete self-referential instance: `int`,
`Optional[Node]` and the dataclass `Node {value : int, next :
Optional[Node]}` (whose resolution transitively re-enters `Node`). -/
inductive Desc where
  | int
  | optNode
  | node
deriving DecidableEq, Repr

/-- Built schema objects.  `recRef d` models a
`RecursiveReferenceUnmarshalSchema` instance for descriptor `d`: its
wrapped selection is stored lazily and only constructed when the schema is
first used (the `WrapperSchema.schema` property). -/
inductive SchemaObj where
  | intS
  | optS (inner : SchemaObj)
  | nodeS (valueS : SchemaObj) (nextS : SchemaObj)
  | recRef (d : Desc)
deriving DecidableEq, Repr

/-- Construction of the matched selection for a descriptor (the eager part
of the schema constructors: a structured schema builds the schemas of its
field descriptors via `marsh.schema.UnmarshalSchema(field_type)`, which is
the field-builder `fb` threading the in-progress cache). -/
def constructD (fb : List Desc → Desc → Option (SchemaObj × List Desc))
    (c : List Desc) : Desc → Option (SchemaObj × List Desc)
  | .int => some (.intS, c)
  | .optNode =>
    match fb c .node with
    | some p => some (.optS p.1, p.2)
    | none => none
  | .node =>
    match fb c .int with
    | none => none
    | some p₁ =>
      match fb p₁.2 .optNode with
      | none => none
      | some p₂ => some (.nodeS p₁.1 p₂.1, p₂.2)

/-- Model of `UnmarshalSchemaMeta._build` for this instance, with `c` the
key set of the per-thread in-progress map (its stored selections are
determined by the descriptor under this fixed registry): if the descriptor
is in progress, return the lazy placeholder; otherwise record it BEFORE
constructing.  `fuel` bounds the recursion depth; `buildD_total` shows that
any fuel exceeding the number of descriptors not yet in progress is enough,
i.e. the recursion always terminates. -/
def buildD : Nat → List Desc → Desc → Option (SchemaObj × List Desc)
  | 0, _, _ => none
  | f + 1, c, d =>
    if d ∈ c then some (.recRef d, c) else constructD (buildD f) (d :: c) d

/-- Forcing a `RecursiveReferenceUnmarshalSchema` (the lazy
`WrapperSchema.schema` property): construct the stored selection, building
field schemas against the current (persistent) in-progress map.  The fuel
`4` (one more than the number of descriptors) always suffices by
`buildD_total`. -/
def forceD (f : Nat) (c : List Desc) (d : Desc) :
    Option (SchemaObj × List Desc) :=
  constructD (buildD f) c d

/-- How many descriptors are not yet in the in-progress map. -/
def missing (c : List Desc) : Nat :=
  (if Desc.int ∈ c then 0 else 1) + (if Desc.optNode ∈ c then 0 else 1) +
    (if Desc.node ∈ c then 0 else 1)

/-- JSON-like elements. -/
inductive Elem where
  | int (n : Int)
  | str (s : String)
  | null
  | map (entries : List (String × Elem))

/-- Finite values of the recursive `Node` shape (a value and an optional
next node). -/
inductive NodeVal where
  | last (value : Int)
  | cons (value : Int) (next : NodeVal)
deriving DecidableEq, Repr

/-- Results of unmarshaling. -/
inductive UVal where
  | uInt (n : Int)
  | uOptNode (o : Option NodeVal)
  | uNode (n : NodeVal)
deriving DecidableEq, Repr

/-- Marshaled form of a `Node` value (field map with `value` and `next`,
`None` encoded as null). -/
def marshalNode : NodeVal → Elem
  | .last n => .map [("value", .int n), ("next", .null)]
  | .cons n m => .map [("value", .int n), ("next", marshalNode m)]

/-- Size of a node chain. -/
def nsize : NodeVal → Nat
  | .last _ => 1
  | .cons _ m => nsize m + 1

/-- Pack an `Int` and an optional tail back into a `NodeVal`. -/
def NodeVal.ofParts : Int × Option NodeVal → NodeVal
  | (n, none) => .last n
  | (n, some m) => .cons n m

/-- Unmarshal an element against a built schema object.  A `recRef` forces
its lazy selection via `forceD` (with always-sufficient fuel `4`) against
the persistent in-progress map and continues with the forced schema; the
`fuel` argument bounds the total number of steps and `unm_mono` shows the
result is stable once the fuel suffices. -/
def unm : Nat → List Desc → SchemaObj → Elem → Option UVal
  | 0, _, _, _ => none
  | _ + 1, _, .intS, e =>
    match e with
    | .int n => some (.uInt n)
    | _ => none
  | f + 1, c, .optS inner, e =>
    match e with
    | .null => some (.uOptNode none)
    | e =>
      match unm f c inner e with
      | some (.uNode nv) => some (.uOptNode (some nv))
      | _ => none
  | f + 1, c, .nodeS vs ns, e =>
    match e with
    | .map entries =>
      match SD.alist entries "value", SD.alist entries "next" with
      | some ev, some en =>
        match unm f c vs ev, unm f c ns en with
        | some (.uInt n), some (.uOptNode o) =>
          some (.uNode (NodeVal.ofParts (n, o)))
        | _, _ => none
      | _, _ => none
    | _ => none
  | f + 1, c, .recRef d, e =>
    match forceD 4 c d with
    | some p => unm f p.2 p.1 e
    | none => none

/-- The in-progress map contents after the top-level build of `node`. -/
def cacheN : List Desc := [.optNode, .int, .node]

/-- The schema built for `node` at top level. -/
def nodeSchema : SchemaObj := .nodeS .intS (.optS (.recRef .node))

end Rec

namespace NS

open Rec (Elem)

/-- Errors from namespace unmarshal dispatch.  `unknownName nv cands`
models `UnmarshalError(get_closest_error_message(value=name,
candidates=candidates, key='name'), path='name')`: the raised error carries
the unmatched discriminator value and the candidate names from which the
closest-match suggestion in the message is computed (the `difflib` fuzzy
matching that renders the suggestion string is outside the model).
`handlerErr` stands for an error raised by a delegated schema. -/
inductive NsErr where
  | unknownName (nv : Elem) (cands : List String)
  | handlerErr (tag : Nat)

/-- A namespace unmarshal wrapper: the wrapped non-polymorphic base schema
and the `(name, resolved component schema)` candidates yielded by
`self.namespaces.find_subclasses(self.value)` in iteration order. -/
structure NsSchema (V : Type) where
  base : Elem → Except NsErr V
  candidates : List (String × (Elem → Except NsErr V))

/-- `marsh.utils.is_missing` restricted to element values:
`marsh.MISSING = omegaconf.MISSING` is the string `'???'`
(`dataclasses.MISSING` is not representable as an element). -/
def elemIsMissing : Elem → Bool
  | .str s => s = "???"
  | _ => false

/-- Python equality `candidate == name` between a candidate name (a `str`)
and the popped discriminator element: true exactly for an equal string
element. -/
def elemStrEq (c : String) : Elem → Bool
  | .str s => c = s
  | _ => false

/-- The loop of `NamespaceUnmarshalSchema.find_namespace` (composed with the
`namespace[name]` schema lookup): return the first candidate whose name
equals the discriminator value, collecting candidate names for the error
message. -/
def findComponent {V : Type} :
    List (String × (Elem → Except NsErr V)) → Elem → List String →
      Except NsErr (Elem → Except NsErr V)
  | [], nv, acc => .error (.unknownName nv acc)
  | (c, h) :: rest, nv, acc =>
    if elemStrEq c nv then .ok h else findComponent rest nv (acc ++ [c])

/-- Model of `NamespaceUnmarshalSchema.unmarshal`:

```
name: str = marsh.MISSING
if marsh.utils.is_mapping(element):
    element = dict(element)
    name = element.pop('name', marsh.MISSING)
if marsh.utils.is_missing(name):
    return self.schema.unmarshal(element)
return self.find_namespace(name)[name].unmarshal(element)
```

Maps are association lists with unique keys (Python dicts); popping removes
the `name` entry. -/
def nsUnmarshal {V : Type} (s : NsSchema V) (e : Elem) : Except NsErr V :=
  match e with
  | .map entries =>
    match SD.alist entries "name" with
    | none => s.base (.map entries)
    | some nv =>
      let rest := Elem.map (entries.filter (fun p => ¬ p.1 = "name"))
      if elemIsMissing nv then s.base rest
      else
        match findComponent s.candidates nv [] with
        | .ok h => h rest
        | .error err => .error err
  | e => s.base e

/-- Whether an element is a mapping (`marsh.utils.is_mapping`). -/
def isMapping : Elem → Bool
  | .map _ => true
  | _ => false

/-- First candidate whose name equals the discriminator value (the
specification-side view of `findComponent`). -/
def lookupComp {V : Type} (cands : List (String × (Elem → Except NsErr V)))
    (nv : Elem) : Option (Elem → Except NsErr V) :=
  (cands.find? (fun p => elemStrEq p.1 nv)).map (·.2)

end NS

/-! ## Shared helper lemmas -/

theorem alist_mem {κ V : Type} [DecidableEq κ] (l : List (κ × V)) (q : κ)
    (b : V) (h : SD.alist l q = some b) : (q, b) ∈ l := by
  induction l with
  | nil => simp [SD.alist] at h
  | cons p rest ih =>
    obtain ⟨k, v⟩ := p
    by_cases hk : k = q
    · subst hk
      simp [SD.alist] at h
      simp [h]
    · simp [SD.alist, hk] at h
      exact List.mem_cons_of_mem _ (ih h)

theorem alist_append_none {κ V : Type} [DecidableEq κ] (l : List (κ × V))
    (q : κ) (b : V) (h : SD.alist l q = none) :
    SD.alist (l ++ [(q, b)]) q = some b := by
  induction l with
  | nil => simp [SD.alist]
  | cons p rest ih =>
    obtain ⟨k, v⟩ := p
    by_cases hk : k = q
    · subst hk; simp [SD.alist] at h
    · simp [SD.alist, hk] at h ⊢
      exact ih h

/-! ## C10 — SafeDict update-in-place -/

/-- C10 (code bug evidence): the claim states that assigning to a key that
is already present updates the entry in place, leaving `len(d)` unchanged
and yielding the key exactly once during iteration.  Evaluating the
embedded `SafeDict.__setitem__` shows this holds for hashable keys but
fails for unhashable keys: after `d[k] = 1; d[k] = 2` with unhashable `k`,
lookup returns `2` but `len(d) = 2` and iteration yields `k` twice,
because the `for`/`else` in `__setitem__` has no `break`, so the append
branch runs unconditionally. -/
theorem c10_safedict_eval :
    (SD.getItem (SD.setItem (SD.setItem SD.emptyDict ⟨0, false⟩ (1 : Nat))
        ⟨0, false⟩ 2) ⟨0, false⟩ = some 2) ∧
    (SD.lenD (SD.setItem (SD.setItem SD.emptyDict ⟨0, false⟩ (1 : Nat))
        ⟨0, false⟩ 2) = 2) ∧
    (SD.iterKeys (SD.setItem (SD.setItem SD.emptyDict ⟨0, false⟩ (1 : Nat))
        ⟨0, false⟩ 2) = [⟨0, false⟩, ⟨0, false⟩]) ∧
    (SD.getItem (SD.setItem (SD.setItem SD.emptyDict ⟨1, true⟩ (1 : Nat))
        ⟨1, true⟩ 2) ⟨1, true⟩ = some 2) ∧
    (SD.lenD (SD.setItem (SD.setItem SD.emptyDict ⟨1, true⟩ (1 : Nat))
        ⟨1, true⟩ 2) = 1) ∧
    (SD.iterKeys (SD.setItem (SD.setItem SD.emptyDict ⟨1, true⟩ (1 : Nat))
        ⟨1, true⟩ 2) = [⟨1, true⟩]) := by
  decide

/-! ## C6 — PriorityOrder duplicate rejection -/

/-- C6 (code bug evidence): the claim states that adding an already-present
value with `replace=False` raises an already-exists error and with
`replace=True` replaces the entry keeping the length.  Evaluating the
embedded `PriorityOrder.add` shows neither happens: the duplicate check
compares freshly allocated `_WrappedValue` wrappers by Python object
identity (no `__eq__` is defined), which never matches, so a second `add`
of the value `5` silently inserts a duplicate (2 entries, no error) and
`replace=True` behaves identically. -/
theorem c6_priorityorder_eval :
    (PO.add PO.empty 5 0 [] [] false =
      .ok ⟨[⟨5, 0, ⟨5, [], []⟩, 0⟩], 1⟩) ∧
    (PO.add ⟨[⟨5, 0, ⟨5, [], []⟩, 0⟩], 1⟩ 5 0 [] [] false =
      .ok ⟨[⟨5, 0, ⟨5, [], []⟩, 1⟩, ⟨5, 0, ⟨5, [], []⟩, 0⟩], 2⟩) ∧
    (PO.add ⟨[⟨5, 0, ⟨5, [], []⟩, 0⟩], 1⟩ 5 0 [] [] true =
      .ok ⟨[⟨5, 0, ⟨5, [], []⟩, 1⟩, ⟨5, 0, ⟨5, [], []⟩, 0⟩], 2⟩) :=
  ⟨rfl, rfl, rfl⟩

/-- Errors from the insertion scan are always the circular error. -/
theorem scanLoop_error (w : PO.WrappedValue) (vs : List PO.WrappedValue)
    (i idx : Nat) (e : PO.PErr) (h : PO.scanLoop w vs i idx = .error e) :
    e = .circular := by
  induction vs generalizing i idx with
  | nil => simp [PO.scanLoop] at h
  | cons v rest ih =>
    rw [PO.scanLoop] at h
    rcases hrel : PO.getRelation w.rel v.rel with e' | r
    · rw [hrel] at h
      dsimp only at h
      have he : e' = e := by injection h
      subst he
      simp only [PO.getRelation] at hrel
      split at hrel
      · injection hrel with h'
        exact h'.symm
      · cases hrel
    · rw [hrel] at h
      dsimp only at h
      split at h
      · cases h
      · split at h
        · exact ih _ _ h
        · exact ih _ _ h

/-- The duplicate/replace branch of `PriorityOrder.add` is dead code: on any
state whose allocation indices are below the counter (true of all reachable
states), the identity comparison of the freshly created wrapper never
matches, so `add` never returns the already-exists error. -/
theorem add_dup_dead (p : PO.PriorityOrder)
    (hwf : ∀ w ∈ p.values, w.index < p.counter)
    (v : Nat) (pr : Int) (lo hi : List Nat) (rep : Bool) :
    PO.add p v pr lo hi rep ≠ .error .alreadyExists := by
  intro hcontra
  unfold PO.add at hcontra
  split at hcontra
  · cases hcontra
  · have hfind : p.values.findIdx? (fun u => u.index == p.counter) = none := by
      rw [List.findIdx?_eq_none_iff]
      intro u hu
      simpa using Nat.ne_of_lt (hwf u hu)
    simp only [PO.mkWrapped] at hcontra
    rw [hfind] at hcontra
    dsimp only at hcontra
    rcases hscan : PO.scanLoop ⟨v, pr, ⟨v, lo, hi⟩, p.counter⟩ p.values 0 0 with e | k
    · rw [hscan] at hcontra
      have he : e = PO.PErr.alreadyExists := by injection hcontra
      subst he
      have h2 := scanLoop_error _ _ _ _ _ hscan
      cases h2
    · rw [hscan] at hcontra
      cases hcontra

/-! ## C7 — cache transparency -/

/-- C7: for a pure operation `f` wrapped by `marsh.utils.cache` with
`safe=True`, and any cache state consistent with `f`, the wrapped call
returns exactly what the direct call returns (so it never raises an error
the direct call would not raise; unhashable arguments bypass the cache via
the absorbed `TypeError`), and the cache stays consistent. -/
theorem c7_cache_transparent {α β : Type} [DecidableEq α]
    (f : α → MC.PyRes β) (hashable : α → Bool) (st : List (α × β)) (a : α)
    (h : MC.Consistent f st) :
    (MC.safeCall f hashable st a).1 = f a ∧
      MC.Consistent f (MC.safeCall f hashable st a).2 := by
  unfold MC.safeCall MC.lruCall
  by_cases hh : hashable a
  · simp only [hh, if_true]
    cases hl : SD.alist st a with
    | some b =>
      have hb : f a = .ok b := h _ (alist_mem st a b hl)
      simp [hb, h]
    | none =>
      cases hf : f a with
      | ok b =>
        refine ⟨rfl, ?_⟩
        intro p hp
        rcases List.mem_append.mp hp with hp | hp
        · exact h _ hp
        · simp at hp
          simp [hp, hf]
      | typeError => simp [h]
      | otherError => simp [h]
  · simp only [hh, if_false]
    simp [h]

/-- Witness for C7 at a concrete pure function, empty cache and argument. -/
theorem c7_witness :
    (MC.safeCall (fun n : Nat => MC.PyRes.ok (n + 1)) (fun _ => true) [] 0).1 =
      (fun n : Nat => MC.PyRes.ok (n + 1)) 0 ∧
      MC.Consistent (fun n : Nat => MC.PyRes.ok (n + 1))
        (MC.safeCall (fun n : Nat => MC.PyRes.ok (n + 1)) (fun _ => true) [] 0).2 :=
  c7_cache_transparent _ _ _ _ (by intro p hp; simp at hp)

/-! ## C5 — contradiction detection -/

/-- C5: adding `a` declaring `b` as higher priority, then adding `b`
declaring `a` as higher priority, raises the contradictory-relative-
priority error (`ValueError('circular relative priorities ...')`, the
spec's ConfigurationError) on the second add; and any single `add` whose
own lower/higher relation sets intersect raises the error immediately. -/
theorem c5_contradiction (a b v c : Nat) (pr : Int) (lo hi : List Nat)
    (p : PO.PriorityOrder) (rep : Bool) (h₁ : c ∈ lo) (h₂ : c ∈ hi) :
    ((PO.add PO.empty a 0 [] [b] false).bind
        (fun q => PO.add q b 0 [] [a] false) = .error .circular) ∧
    PO.add p v pr lo hi rep = .error .circular := by
  constructor
  · have h1 : PO.add PO.empty a 0 [] [b] false =
        .ok ⟨[⟨a, 0, ⟨a, [], [b]⟩, 0⟩], 1⟩ := rfl
    rw [h1]
    show PO.add ⟨[⟨a, 0, ⟨a, [], [b]⟩, 0⟩], 1⟩ b 0 [] [a] false = .error .circular
    unfold PO.add
    simp [PO.mkWrapped, PO.scanLoop, PO.getRelation, List.findIdx?]
  · have hany : lo.any (fun x => hi.contains x) = true := by
      rw [List.any_eq_true]
      exact ⟨c, h₁, by simpa using h₂⟩
    unfold PO.add
    rw [hany]
    simp

/-- Witness for C5 at concrete values. -/
theorem c5_witness :
    ((PO.add PO.empty 1 0 [] [2] false).bind
        (fun q => PO.add q 2 0 [] [1] false) = .error .circular) ∧
    PO.add PO.empty 0 0 [3] [3] false = .error .circular :=
  c5_contradiction 1 2 0 3 0 [3] [3] PO.empty false (by simp) (by simp)

/-! ## C3 — matching algorithm and Selection shape -/

/-- A template's `isMatchTrue` flag agrees with `matchD` returning `True`. -/
theorem isMatchTrue_iff (t : Reg.Template) (v : Nat) :
    Reg.isMatchTrue t v = true ↔ t.matchD v = .ok true := by
  unfold Reg.isMatchTrue
  rcases h : t.matchD v with b | _ | _ <;> simp
  cases b <;> simp

/-- Characterization of a successful `SchemaRegistry.match` loop: the
template sequence splits at the first matching non-wrapper (with no escaped
exception before it), and the selection is the accumulator followed by the
matching wrappers seen on the way, then that non-wrapper. -/
theorem matchLoop_ok (v : Nat) (ts : List Reg.Template) :
    ∀ acc sel, Reg.matchLoop v ts acc = .ok sel →
      ∃ ts₁ t ts₂, ts = ts₁ ++ t :: ts₂ ∧ t.wrapper = false ∧
        t.matchD v = .ok true ∧
        (∀ u ∈ ts₁, u.matchD v ≠ .otherErr ∧
          (u.matchD v = .ok true → u.wrapper = true)) ∧
        sel = acc ++ ts₁.filter (fun u => Reg.isMatchTrue u v) ++ [t] := by
  induction ts with
  | nil => intro acc sel h; simp [Reg.matchLoop] at h
  | cons t rest ih =>
    intro acc sel h
    rw [Reg.matchLoop] at h
    rcases hm : t.matchD v with b | _ | _
    · rw [hm] at h
      cases b
      · dsimp only at h
        obtain ⟨ts₁, t', ts₂, hsplit, hw, hmt, hpre, hsel⟩ := ih acc sel h
        refine ⟨t :: ts₁, t', ts₂, by simp [hsplit], hw, hmt, ?_, ?_⟩
        · intro u hu
          rcases List.mem_cons.mp hu with hu | hu
          · subst hu; simp [hm]
          · exact hpre u hu
        · have : Reg.isMatchTrue t v = false := by
            simp [Reg.isMatchTrue, hm]
          simp [List.filter_cons, this, hsel]
      · dsimp only at h
        by_cases hw : t.wrapper
        · rw [if_pos hw] at h
          obtain ⟨ts₁, t', ts₂, hsplit, hw', hmt, hpre, hsel⟩ :=
            ih (acc ++ [t]) sel h
          refine ⟨t :: ts₁, t', ts₂, by simp [hsplit], hw', hmt, ?_, ?_⟩
          · intro u hu
            rcases List.mem_cons.mp hu with hu | hu
            · subst hu; simp [hm, hw]
            · exact hpre u hu
          · have : Reg.isMatchTrue t v = true := by
              simp [Reg.isMatchTrue, hm]
            simp [List.filter_cons, this, hsel]
        · rw [if_neg hw] at h
          have hsel : sel = acc ++ [t] := by
            injection h with h'
            exact h'.symm
          refine ⟨[], t, rest, rfl, by simpa using hw, hm, by simp, by simp [hsel]⟩
    · rw [hm] at h
      dsimp only at h
      obtain ⟨ts₁, t', ts₂, hsplit, hw, hmt, hpre, hsel⟩ := ih acc sel h
      refine ⟨t :: ts₁, t', ts₂, by simp [hsplit], hw, hmt, ?_, ?_⟩
      · intro u hu
        rcases List.mem_cons.mp hu with hu | hu
        · subst hu; simp [hm]
        · exact hpre u hu
      · have : Reg.isMatchTrue t v = false := by
          simp [Reg.isMatchTrue, hm]
        simp [List.filter_cons, this, hsel]
    · rw [hm] at h
      cases h

/-- When every template either does not match `True` or is a wrapper (and
none raises a non-`TypeError`), the loop exhausts the order and raises the
registry's configured error. -/
theorem matchLoop_noMatch (v : Nat) (ts : List Reg.Template)
    (h : ∀ t ∈ ts, t.matchD v ≠ .otherErr ∧
      (t.matchD v = .ok true → t.wrapper = true)) :
    ∀ acc, Reg.matchLoop v ts acc = .error .noMatch := by
  induction ts with
  | nil => intro acc; rfl
  | cons t rest ih =>
    intro acc
    have ht := h t (by simp)
    have hrest : ∀ u ∈ rest, u.matchD v ≠ .otherErr ∧
        (u.matchD v = .ok true → u.wrapper = true) := by
      intro u hu; exact h u (by simp [hu])
    rw [Reg.matchLoop]
    rcases hm : t.matchD v with b | _ | _
    · cases b
      · exact ih hrest acc
      · have hw := ht.2 hm
        simp only [hw, if_true]
        exact ih hrest (acc ++ [t])
    · exact ih hrest acc
    · exact absurd hm ht.1

/-- C3: `SchemaRegistry.match` iterates templates in priority order,
appending each matching template; it returns the accumulated selection as
soon as a non-wrapper matches, so every returned selection is non-empty,
its last element is a non-wrapper, every preceding element is a wrapper,
and the selection consists exactly of the matching templates up to and
including the first matching non-wrapper (no earlier non-wrapper matched,
no exception other than the swallowed `TypeError` escaped earlier).  If the
whole order is exhausted with only wrappers (or nothing) matched, the
registry's configured error is raised. -/
theorem c3_match_selection (ts : List Reg.Template) (v : Nat) :
    (∀ sel, Reg.registryMatch ts v = .ok sel →
      sel ≠ [] ∧
      (∃ t, sel.getLast? = some t ∧ t.wrapper = false) ∧
      (∀ u ∈ sel.dropLast, u.wrapper = true) ∧
      ∃ ts₁ t ts₂, ts = ts₁ ++ t :: ts₂ ∧ t.wrapper = false ∧
        t.matchD v = .ok true ∧
        (∀ u ∈ ts₁, u.matchD v ≠ .otherErr ∧
          (u.matchD v = .ok true → u.wrapper = true)) ∧
        sel = ts₁.filter (fun u => Reg.isMatchTrue u v) ++ [t]) ∧
    ((∀ t ∈ ts, t.matchD v ≠ .otherErr ∧
        (t.matchD v = .ok true → t.wrapper = true)) →
      Reg.registryMatch ts v = .error .noMatch) := by
  constructor
  · intro sel h
    obtain ⟨ts₁, t, ts₂, hsplit, hw, hmt, hpre, hsel⟩ :=
      matchLoop_ok v ts [] sel h
    simp only [List.nil_append] at hsel
    subst hsel
    refine ⟨by simp, ⟨t, ?_, hw⟩, ?_, ts₁, t, ts₂, hsplit, hw, hmt, hpre, rfl⟩
    · exact List.getLast?_concat _
    · intro u hu
      rw [List.dropLast_concat] at hu
      have hu' := List.mem_filter.mp hu
      exact (hpre u hu'.1).2 ((isMatchTrue_iff u v).mp hu'.2)
  · intro h
    exact matchLoop_noMatch v ts h []

/-- Witness for C3 at the spec's scenario registry: a wrapper matching
everything followed by a non-wrapper matching everything selects both, with
the non-wrapper last. -/
theorem c3_witness :
    ([Reg.tWrapAll, Reg.tTermAll] : List Reg.Template) ≠ [] ∧
    (∃ t, ([Reg.tWrapAll, Reg.tTermAll] : List Reg.Template).getLast? = some t ∧
      t.wrapper = false) ∧
    (∀ u ∈ ([Reg.tWrapAll, Reg.tTermAll] : List Reg.Template).dropLast,
      u.wrapper = true) ∧
    ∃ ts₁ t ts₂,
      ([Reg.tWrapAll, Reg.tTermAll] : List Reg.Template) = ts₁ ++ t :: ts₂ ∧
      t.wrapper = false ∧ t.matchD 0 = .ok true ∧
      (∀ u ∈ ts₁, u.matchD 0 ≠ .otherErr ∧
        (u.matchD 0 = .ok true → u.wrapper = true)) ∧
      ([Reg.tWrapAll, Reg.tTermAll] : List Reg.Template) =
        ts₁.filter (fun u => Reg.isMatchTrue u 0) ++ [t] :=
  (c3_match_selection [Reg.tWrapAll, Reg.tTermAll] 0).1
    [Reg.tWrapAll, Reg.tTermAll] rfl

/-! ## C1 — cache invalidation on registration -/

/-- C1 (counterexample): with `tLow` registered and `resolve(7)` cached
(state `st1`), registering the higher-priority matching template `tHigh`
through the registry path (`registry.register` / `marsh.schema.register`,
which calls only `UnmarshalSchemaRegistry.cache_clear`, i.e. clears only
the match cache) does NOT remove the entry from the resolved-handler cache:
the next `resolve(7)` still returns the old handler built from `[tLow]`,
although a fresh `registry.match(7)` would now select `[tHigh]`.  This
refutes the claim that registering anywhere removes the cached entry and
changes the result of the next `resolve(7)`. -/
theorem c1_stale_cache_counterexample :
    Eng.resolve Eng.st0 7 = .ok (.built [Eng.tLow], Eng.st1) ∧
    Eng.registerTemplate Eng.st1 Eng.tHigh = Eng.st2 ∧
    Eng.resolve Eng.st2 7 = .ok (.built [Eng.tLow], Eng.st2) ∧
    Reg.registryMatch Eng.st2.registry 7 = .ok [Eng.tHigh] ∧
    SD.alist Eng.st2.buildCache 7 = some (.built [Eng.tLow]) :=
  ⟨rfl, rfl, rfl, rfl, rfl⟩

/-- C1 (amended): registering through `Namespace.register` (which calls
`marsh.schema.UnmarshalSchema.cache_clear()`) empties the resolved-handler
cache, the match cache and the recursive cache, so the next `resolve(D)`
re-runs matching against the current registry; but registering through
`registry.register` / `marsh.schema.register` clears only the registry
match cache and leaves the resolved-handler cache intact, so any descriptor
with a cached handler keeps resolving to the stale handler. -/
theorem c1_invalidation_amended (st : Eng.EngState) (t : Reg.Template)
    (v : Nat) (h : Eng.Handler) (sel : Eng.Selection) :
    ((Eng.registerTemplate st t).buildCache = st.buildCache ∧
      (Eng.registerTemplate st t).matchCache = [] ∧
      (Eng.registerTemplate st t).recCache = st.recCache) ∧
    ((Eng.namespaceRegisterCaches st).buildCache = [] ∧
      (Eng.namespaceRegisterCaches st).matchCache = [] ∧
      (Eng.namespaceRegisterCaches st).recCache = []) ∧
    (SD.alist st.buildCache v = some h → Eng.resolve st v = .ok (h, st)) ∧
    (Reg.registryMatch st.registry v = .ok sel →
      ∃ st₂, Eng.resolve (Eng.namespaceRegisterCaches st) v =
        .ok (.built sel, st₂)) := by
  refine ⟨⟨rfl, rfl, rfl⟩, ⟨rfl, rfl, rfl⟩, ?_, ?_⟩
  · intro hhit
    unfold Eng.resolve
    rw [hhit]
  · intro hmatch
    refine ⟨⟨st.registry, [(v, sel)], [(v, .built sel)], [(v, sel)]⟩, ?_⟩
    simp only [Eng.resolve, Eng.buildStep, Eng.cachedMatch,
      Eng.namespaceRegisterCaches, SD.alist, hmatch, List.nil_append]

/-- Witness for C1's amended statement at the concrete stale state. -/
theorem c1_invalidation_witness :
    ((Eng.registerTemplate Eng.st1 Eng.tHigh).buildCache = Eng.st1.buildCache ∧
      (Eng.registerTemplate Eng.st1 Eng.tHigh).matchCache = [] ∧
      (Eng.registerTemplate Eng.st1 Eng.tHigh).recCache = Eng.st1.recCache) ∧
    ((Eng.namespaceRegisterCaches Eng.st1).buildCache = [] ∧
      (Eng.namespaceRegisterCaches Eng.st1).matchCache = [] ∧
      (Eng.namespaceRegisterCaches Eng.st1).recCache = []) ∧
    Eng.resolve Eng.st1 7 = .ok (.built [Eng.tLow], Eng.st1) ∧
    ∃ st₂, Eng.resolve (Eng.namespaceRegisterCaches Eng.st1) 7 =
      .ok (.built [Eng.tLow], st₂) :=
  let T := c1_invalidation_amended Eng.st1 Eng.tHigh 7 (.built [Eng.tLow])
    [Eng.tLow]
  ⟨T.1, T.2.1, T.2.2.1 rfl, T.2.2.2 rfl⟩

/-! ## C9 — in-progress map scoping -/

/-- C9 (counterexample): resolving descriptor `7` at top level from a state
with an empty in-progress map leaves a leftover entry for `7` in the map
after the call returns — the map is NOT restored to its pre-call state
(`UnmarshalSchemaMeta._build` stores into the per-thread recursive cache
before building and nothing ever removes the entry). -/
theorem c9_leftover_counterexample :
    Eng.st0.recCache = [] ∧
    Eng.resolve Eng.st0 7 = .ok (.built [Eng.tLow], Eng.st1) ∧
    Eng.st1.recCache = [(7, [Eng.tLow])] ∧
    Eng.st1.recCache ≠ Eng.st0.recCache :=
  ⟨rfl, rfl, rfl, fun h => List.cons_ne_nil _ _ h⟩

/-- Lemma: the cached-match step never changes the build or recursive
caches. -/
theorem cachedMatch_caches (st : Eng.EngState) (v : Nat) (sel : Eng.Selection)
    (st₁ : Eng.EngState) (h : Eng.cachedMatch st v = .ok (sel, st₁)) :
    st₁.recCache = st.recCache ∧ st₁.buildCache = st.buildCache ∧
      st₁.registry = st.registry := by
  unfold Eng.cachedMatch at h
  split at h
  · injection h with h'
    cases h'
    exact ⟨rfl, rfl, rfl⟩
  · split at h
    · injection h with h'
      cases h'
      exact ⟨rfl, rfl, rfl⟩
    · cases h

/-- C9 (amended): the per-thread in-progress map is consulted during a
resolve call to detect cycles, but it is not scoped to the call: after a
top-level `resolve(D)` that actually built a handler (no prior in-progress
or resolved-handler entry for `D`), the map retains the selection recorded
for `D`; entries disappear only through an explicit full `cache_clear`
(as performed by `Namespace.register`). -/
theorem c9_leftover_amended (st : Eng.EngState) (v : Nat) (h : Eng.Handler)
    (st₁ : Eng.EngState)
    (hrec : SD.alist st.recCache v = none)
    (hbuild : SD.alist st.buildCache v = none)
    (hres : Eng.resolve st v = .ok (h, st₁)) :
    ∃ sel, h = .built sel ∧ SD.alist st₁.recCache v = some sel ∧
      (Eng.namespaceRegisterCaches st₁).recCache = [] := by
  unfold Eng.resolve at hres
  rw [hbuild] at hres
  unfold Eng.buildStep at hres
  rw [hrec] at hres
  rcases hcm : Eng.cachedMatch st v with e | p
  · rw [hcm] at hres
    cases hres
  · rw [hcm] at hres
    obtain ⟨sel, stm⟩ := p
    dsimp only at hres
    injection hres with h'
    rw [Prod.mk.injEq] at h'
    obtain ⟨hh, hst⟩ := h'
    subst hst
    refine ⟨sel, hh.symm, ?_, rfl⟩
    have hrc := (cachedMatch_caches st v sel stm hcm).1
    dsimp only
    rw [hrc]
    exact alist_append_none _ _ _ hrec

/-- Witness for C9's amended statement at the concrete initial state. -/
theorem c9_leftover_witness :
    ∃ sel, Eng.Handler.built [Eng.tLow] = .built sel ∧
      SD.alist Eng.st1.recCache 7 = some sel ∧
      (Eng.namespaceRegisterCaches Eng.st1).recCache = [] :=
  c9_leftover_amended Eng.st0 7 (.built [Eng.tLow]) Eng.st1 rfl rfl rfl

/-! ## C8 — namespace decode dispatch -/

/-- `find_namespace` returns the first candidate whose name equals the
discriminator value. -/
theorem findComponent_found {V : Type}
    (cands : List (String × (Rec.Elem → Except NS.NsErr V))) (nv : Rec.Elem) :
    ∀ acc hnd, NS.lookupComp cands nv = some hnd →
      NS.findComponent cands nv acc = .ok hnd := by
  induction cands with
  | nil => intro acc hnd hl; simp [NS.lookupComp, List.find?] at hl
  | cons p rest ih =>
    intro acc hnd hl
    obtain ⟨c, hc⟩ := p
    by_cases heq : NS.elemStrEq c nv = true
    · simp [NS.lookupComp, List.find?_cons, heq] at hl
      simp [NS.findComponent, heq, hl]
    · have heq' : NS.elemStrEq c nv = false := Bool.eq_false_iff.mpr heq
      simp only [NS.lookupComp, List.find?_cons, heq'] at hl
      simp only [NS.findComponent, heq', Bool.false_eq_true, if_false]
      exact ih _ _ hl

/-- When no candidate name equals the discriminator value, `find_namespace`
raises the unmarshal error carrying the value and all candidate names (from
which the closest-match suggestion is rendered). -/
theorem findComponent_missed {V : Type}
    (cands : List (String × (Rec.Elem → Except NS.NsErr V))) (nv : Rec.Elem)
    (h : NS.lookupComp cands nv = none) :
    ∀ acc, NS.findComponent cands nv acc =
      .error (.unknownName nv (acc ++ cands.map (·.1))) := by
  induction cands with
  | nil => intro acc; simp [NS.findComponent]
  | cons p rest ih =>
    intro acc
    obtain ⟨c, hc⟩ := p
    by_cases heq : NS.elemStrEq c nv = true
    · simp [NS.lookupComp, List.find?_cons, heq] at h
    · have heq' : NS.elemStrEq c nv = false := Bool.eq_false_iff.mpr heq
      simp only [NS.lookupComp, List.find?_cons, heq'] at h
      simp only [NS.findComponent, heq', Bool.false_eq_true, if_false]
      rw [ih h]
      simp

/-- C8 (counterexample): the claim states that for every mapping input
containing the discriminator key `name`, the named component is looked up
(raising an `UnmarshalError` when no component matches) and decoding is
delegated to it.  But a mapping whose `name` value is the missing marker
(`marsh.MISSING = omegaconf.MISSING`, the string `'???'`) bypasses the
lookup entirely: the key is popped and the base schema decodes the
remaining element.  Here `'???'` matches no registered component, yet no
error is raised and the base schema (which reports the number of remaining
entries) runs on the element with the key removed. -/
theorem c8_missing_marker_counterexample :
    NS.nsUnmarshal (V := Nat)
      ⟨fun e => match e with | .map l => .ok l.length | _ => .ok 99,
        [("circle", fun _ => .ok 7)]⟩
      (.map [("name", .str "???"), ("x", .int 1)]) = .ok 1 := rfl

/-- C8 (amended): `NamespaceUnmarshalSchema.unmarshal` dispatches as
follows.  For a non-mapping element, or a mapping without the `name` key,
the element is decoded directly by the wrapped non-polymorphic base schema.
For a mapping with a `name` key the key is removed; if its value is the
missing marker `'???'` the base schema decodes the remaining element;
otherwise the named component is looked up among the namespace candidates
in order — decoding of the remaining element is delegated to the first
component with that name, and if none matches, an `UnmarshalError` carrying
the unmatched value and the candidate names (for the closest-match
suggestion) is raised. -/
theorem c8_dispatch_amended {V : Type} (s : NS.NsSchema V) (e : Rec.Elem)
    (entries : List (String × Rec.Elem)) (nv : Rec.Elem)
    (hnd : Rec.Elem → Except NS.NsErr V) :
    (NS.isMapping e = false → NS.nsUnmarshal s e = s.base e) ∧
    (SD.alist entries "name" = none →
      NS.nsUnmarshal s (.map entries) = s.base (.map entries)) ∧
    (SD.alist entries "name" = some nv → NS.elemIsMissing nv = true →
      NS.nsUnmarshal s (.map entries) =
        s.base (.map (entries.filter (fun p => ¬ p.1 = "name")))) ∧
    (SD.alist entries "name" = some nv → NS.elemIsMissing nv = false →
      NS.lookupComp s.candidates nv = some hnd →
      NS.nsUnmarshal s (.map entries) =
        hnd (.map (entries.filter (fun p => ¬ p.1 = "name")))) ∧
    (SD.alist entries "name" = some nv → NS.elemIsMissing nv = false →
      NS.lookupComp s.candidates nv = none →
      NS.nsUnmarshal s (.map entries) =
        .error (.unknownName nv (s.candidates.map (·.1)))) := by
  refine ⟨?_, ?_, ?_, ?_, ?_⟩
  · intro hm
    cases e with
    | map entries => simp [NS.isMapping] at hm
    | int n => rfl
    | str t => rfl
    | null => rfl
  · intro hl
    simp [NS.nsUnmarshal, hl]
  · intro hl hmiss
    simp [NS.nsUnmarshal, hl, hmiss]
  · intro hl hmiss hcomp
    simp only [NS.nsUnmarshal, hl, hmiss, Bool.false_eq_true, if_false]
    rw [findComponent_found s.candidates nv [] hnd hcomp]
  · intro hl hmiss hcomp
    simp only [NS.nsUnmarshal, hl, hmiss, Bool.false_eq_true, if_false]
    rw [findComponent_missed s.candidates nv hcomp []]
    simp

/-- Witness for C8's amended statement on a concrete namespace schema. -/
theorem c8_dispatch_witness :
    (NS.nsUnmarshal (V := Nat)
      ⟨fun _ => .ok 99, [("circle", fun _ => .ok 7)]⟩ (.int 3) =
        .ok 99) ∧
    (NS.nsUnmarshal (V := Nat)
      ⟨fun _ => .ok 99, [("circle", fun _ => .ok 7)]⟩
      (.map [("name", .str "circle"), ("radius", .int 2)]) = .ok 7) ∧
    (NS.nsUnmarshal (V := Nat)
      ⟨fun _ => .ok 99, [("circle", fun _ => .ok 7)]⟩
      (.map [("name", .str "square")]) =
        .error (.unknownName (.str "square") ["circle"])) := by
  have T := c8_dispatch_amended (V := Nat)
    ⟨fun _ => .ok 99, [("circle", fun _ => .ok 7)]⟩ (.int 3)
    [("name", .str "circle"), ("radius", .int 2)] (.str "circle")
    (fun _ => .ok 7)
  have T₂ := c8_dispatch_amended (V := Nat)
    ⟨fun _ => .ok 99, [("circle", fun _ => .ok 7)]⟩ (.int 3)
    [("name", .str "square")] (.str "square") (fun _ => .ok 7)
  exact ⟨T.1 rfl, T.2.2.2.1 rfl rfl rfl, T₂.2.2.2.2 rfl rfl rfl⟩

/-! ## C4 — priority ordering -/

/-- Relation between two relation-free containers: no constraint in either
direction. -/
theorem getRelation_free (a b : PO.RelPrio)
    (ha : a.lower = [] ∧ a.higher = []) (hb : b.lower = [] ∧ b.higher = []) :
    PO.getRelation a b = .ok (false, false) := by
  simp [PO.getRelation, ha.1, ha.2, hb.1, hb.2]

/-- Shifting both loop accumulators shifts the scan result. -/
theorem scanLoop_shift (w : PO.WrappedValue) (vs : List PO.WrappedValue) :
    ∀ i idx, PO.scanLoop w vs (i + 1) (idx + 1) =
      Except.map (· + 1) (PO.scanLoop w vs i idx) := by
  induction vs with
  | nil => intro i idx; rfl
  | cons v rest ih =>
    intro i idx
    rw [PO.scanLoop, PO.scanLoop]
    cases hrel : PO.getRelation w.rel v.rel with
    | error e => rfl
    | ok r =>
      dsimp only
      by_cases h2 : r.2
      · simp [h2, Except.map]
      · simp only [h2, Bool.false_eq_true, if_false]
        by_cases h1 : (r.1 || decide (w.priority < v.priority)) = true
        · simp only [h1, if_true]
          exact ih (i + 1) (i + 1)
        · simp only [h1, if_false]
          exact ih (i + 1) idx

/-- When no remaining entry has strictly higher priority than the new one
(and everything is relation-free), the scan keeps the current index. -/
theorem scanLoop_stay (w : PO.WrappedValue) (vs : List PO.WrappedValue)
    (hwf : w.rel.lower = [] ∧ w.rel.higher = [])
    (hfree : ∀ v ∈ vs, v.rel.lower = [] ∧ v.rel.higher = [])
    (hle : ∀ v ∈ vs, ¬ w.priority < v.priority) :
    ∀ i idx, PO.scanLoop w vs i idx = .ok idx := by
  induction vs with
  | nil => intro i idx; rfl
  | cons v rest ih =>
    intro i idx
    rw [PO.scanLoop, getRelation_free _ _ hwf (hfree v (by simp))]
    have hlt : decide (w.priority < v.priority) = false := by
      simpa using hle v (by simp)
    simp only [hlt, Bool.or_false, Bool.false_eq_true, if_false]
    exact ih (fun u hu => hfree u (by simp [hu]))
      (fun u hu => hle u (by simp [hu])) (i + 1) idx

/-- On a relation-free, priority-sorted sequence the insertion scan finds
exactly the position of the reference insertion `insSimple`: after all
strictly-higher-priority entries and before all entries of equal or lower
priority. -/
theorem scanLoop_insSimple (w : PO.WrappedValue) (vs : List PO.WrappedValue)
    (hwf : w.rel.lower = [] ∧ w.rel.higher = [])
    (hfree : ∀ v ∈ vs, v.rel.lower = [] ∧ v.rel.higher = [])
    (hsort : vs.Pairwise (fun u v => v.priority ≤ u.priority)) :
    ∃ k, PO.scanLoop w vs 0 0 = .ok k ∧
      PO.insertAt k w vs = PO.insSimple w vs := by
  induction vs with
  | nil => exact ⟨0, rfl, rfl⟩
  | cons v rest ih =>
    rw [List.pairwise_cons] at hsort
    by_cases hlt : w.priority < v.priority
    · obtain ⟨k, hk, hins⟩ := ih (fun u hu => hfree u (by simp [hu])) hsort.2
      refine ⟨k + 1, ?_, ?_⟩
      · rw [PO.scanLoop, getRelation_free _ _ hwf (hfree v (by simp))]
        have hlt' : decide (w.priority < v.priority) = true := by simpa using hlt
        simp only [hlt', Bool.or_true, if_true, Bool.false_eq_true, if_false]
        have := scanLoop_shift w rest 0 0
        rw [this, hk]
        rfl
      · rw [PO.insSimple, if_pos hlt]
        show v :: PO.insertAt k w rest = _
        rw [hins]
    · refine ⟨0, ?_, ?_⟩
      · rw [PO.scanLoop, getRelation_free _ _ hwf (hfree v (by simp))]
        have hlt' : decide (w.priority < v.priority) = false := by simpa using hlt
        simp only [hlt', Bool.or_false, Bool.false_eq_true, if_false]
        exact scanLoop_stay w rest hwf (fun u hu => hfree u (by simp [hu]))
          (fun u hu hc => hlt (lt_of_lt_of_le hc (hsort.1 u hu))) 1 0
      · rw [PO.insSimple, if_neg hlt]
        rfl

/-- The reference insertion permutes the new entry into the sequence. -/
theorem insSimple_perm (w : PO.WrappedValue) (vs : List PO.WrappedValue) :
    (PO.insSimple w vs).Perm (w :: vs) := by
  induction vs with
  | nil => exact List.Perm.refl _
  | cons v rest ih =>
    rw [PO.insSimple]
    by_cases hlt : w.priority < v.priority
    · rw [if_pos hlt]
      exact (ih.cons v).trans (List.Perm.swap w v rest)
    · rw [if_neg hlt]

/-- The reference insertion keeps the sequence strictly sorted by priority
(descending) with allocation index (descending, i.e. most recent first) as
the tiebreak, provided the new entry is the most recently allocated. -/
theorem insSimple_pairwise (w : PO.WrappedValue) (vs : List PO.WrappedValue)
    (hsort : vs.Pairwise PO.lexGT) (hidx : ∀ v ∈ vs, v.index < w.index) :
    (PO.insSimple w vs).Pairwise PO.lexGT := by
  induction vs with
  | nil => simp [PO.insSimple]
  | cons v rest ih =>
    rw [List.pairwise_cons] at hsort
    rw [PO.insSimple]
    by_cases hlt : w.priority < v.priority
    · rw [if_pos hlt]
      rw [List.pairwise_cons]
      refine ⟨?_, ih hsort.2 (fun u hu => hidx u (by simp [hu]))⟩
      intro u hu
      rw [(insSimple_perm w rest).mem_iff, List.mem_cons] at hu
      rcases hu with hu | hu
      · subst hu
        exact Or.inl hlt
      · exact hsort.1 u hu
    · rw [if_neg hlt]
      rw [List.pairwise_cons]
      refine ⟨?_, List.pairwise_cons.mpr hsort⟩
      intro u hu
      have hui : u.index < w.index := hidx u hu
      have hup : u.priority ≤ w.priority := by
        rcases List.mem_cons.mp hu with hv | hr
        · rw [hv]
          exact le_of_not_lt hlt
        · rcases hsort.1 u hr with hg | hg
          · exact le_trans (le_of_lt hg) (le_of_not_lt hlt)
          · exact le_trans (le_of_eq hg.1.symm) (le_of_not_lt hlt)
      rcases lt_or_eq_of_le hup with hp | hp
      · exact Or.inl hp
      · exact Or.inr ⟨hp.symm, hui⟩

/-- A relation-free `add` on an invariant-respecting state succeeds and
produces exactly the reference insertion. -/
theorem addSimple_insSimple (p : PO.PriorityOrder) (v : Nat) (pr : Int)
    (hinv : PO.PInv p) :
    PO.addSimple p v pr =
      .ok ⟨PO.insSimple (PO.mkWrapped p v pr [] []) p.values,
        p.counter + 1⟩ := by
  obtain ⟨hidx, hsort, hfree⟩ := hinv
  unfold PO.addSimple PO.add
  have hany : ([] : List Nat).any (fun x => ([] : List Nat).contains x) = false := rfl
  rw [hany]
  simp only [Bool.false_eq_true, if_false, PO.mkWrapped]
  have hfind : p.values.findIdx? (fun u => u.index == p.counter) = none := by
    rw [List.findIdx?_eq_none_iff]
    intro u hu
    simpa using Nat.ne_of_lt (hidx u hu)
  rw [hfind]
  obtain ⟨k, hk, hins⟩ := scanLoop_insSimple ⟨v, pr, ⟨v, [], []⟩, p.counter⟩
    p.values ⟨rfl, rfl⟩ hfree
    (hsort.imp (fun hg => by
      rcases hg with hg | hg
      · exact le_of_lt hg
      · exact le_of_eq hg.1.symm))
  rw [hk]
  dsimp only
  rw [hins]

/-- C4 (amended): iteration order of a `PriorityOrder`.  For relation-free
orders (no explicit lower/higher declarations anywhere) the sequence is
always strictly sorted by base priority, higher priority first, with
insertion order as the final tiebreak — but the MOST RECENTLY inserted
entry precedes earlier ones of equal priority; every relation-free `add`
succeeds and inserts exactly the new entry (so for a fixed registration
order the resulting sequence, and hence `match`, is deterministic).  An
explicit relation between a newly added entry and the single existing
entry is respected: the new entry is placed before an entry it declares
lower than itself, and after an entry it declares higher than itself,
regardless of base priorities. -/
theorem c4_priority_order_amended (p : PO.PriorityOrder) (v : Nat) (pr : Int)
    (x y : Nat) (px py : Int) (hinv : PO.PInv p) :
    (∃ q, PO.addSimple p v pr = .ok q ∧ PO.PInv q ∧
      q.values.Perm (PO.mkWrapped p v pr [] [] :: p.values)) ∧
    PO.PInv PO.empty ∧
    ((PO.add PO.empty x px [] [] false).bind
        (fun q => PO.add q y py [x] [] false)).map PO.toValues =
      .ok [y, x] ∧
    ((PO.add PO.empty x px [] [] false).bind
        (fun q => PO.add q y py [] [x] false)).map PO.toValues =
      .ok [x, y] := by
  obtain ⟨hidx, hsort, hfree⟩ := hinv
  refine ⟨?_, ?_, ?_, ?_⟩
  · refine ⟨_, addSimple_insSimple p v pr ⟨hidx, hsort, hfree⟩, ⟨?_, ?_, ?_⟩, ?_⟩
    · intro w hw
      rw [(insSimple_perm _ _).mem_iff, List.mem_cons] at hw
      rcases hw with hw | hw
      · subst hw
        exact Nat.lt_succ_self _
      · exact Nat.lt_succ_of_lt (hidx w hw)
    · exact insSimple_pairwise _ _ hsort (fun u hu => hidx u hu)
    · intro w hw
      rw [(insSimple_perm _ _).mem_iff, List.mem_cons] at hw
      rcases hw with hw | hw
      · subst hw
        exact ⟨rfl, rfl⟩
      · exact hfree w hw
    · exact insSimple_perm _ _
  · refine ⟨?_, ?_, ?_⟩
    · intro w hw
      simp [PO.empty] at hw
    · simp [PO.empty]
    · intro w hw
      simp [PO.empty] at hw
  · have h1 : PO.add PO.empty x px [] [] false =
        .ok ⟨[⟨x, px, ⟨x, [], []⟩, 0⟩], 1⟩ := rfl
    rw [h1]
    show (PO.add ⟨[⟨x, px, ⟨x, [], []⟩, 0⟩], 1⟩ y py [x] [] false).map
      PO.toValues = .ok [y, x]
    unfold PO.add
    simp [PO.mkWrapped, PO.scanLoop, PO.getRelation, List.findIdx?,
      PO.insertAt, PO.toValues, Except.map]
  · have h1 : PO.add PO.empty x px [] [] false =
        .ok ⟨[⟨x, px, ⟨x, [], []⟩, 0⟩], 1⟩ := rfl
    rw [h1]
    show (PO.add ⟨[⟨x, px, ⟨x, [], []⟩, 0⟩], 1⟩ y py [] [x] false).map
      PO.toValues = .ok [x, y]
    unfold PO.add
    simp [PO.mkWrapped, PO.scanLoop, PO.getRelation, List.findIdx?,
      PO.insertAt, PO.toValues, Except.map]

/-- C4 (counterexample): two concrete refutations of the claimed ordering.
First, entries with equal base priority and no explicit relation are NOT
ordered earliest-inserted-first: adding `1` then `2` (both priority 0)
yields iteration order `[2, 1]` — the most recently inserted entry comes
first.  Second, an explicit relation is not always respected: after adding
`1` (priority 100) and `2` (priority 0), adding `3` with `lower=[1]` and
`higher=[2]` yields `[3, 1, 2]` — entry `2`, explicitly declared higher
than `3`, FOLLOWS `3`, because the insertion scan breaks at `1` before ever
comparing against `2`. -/
theorem c4_ordering_counterexample :
    ((PO.add PO.empty 1 0 [] [] false).bind
        (fun p => PO.add p 2 0 [] [] false)).map PO.toValues = .ok [2, 1] ∧
    ((PO.add PO.empty 1 100 [] [] false).bind
        (fun p => (PO.add p 2 0 [] [] false).bind
          (fun q => PO.add q 3 0 [1] [2] false))).map PO.toValues =
      .ok [3, 1, 2] :=
  ⟨rfl, rfl⟩

/-- Witness for C4's amended statement at concrete inputs. -/
theorem c4_order_witness :
    (∃ q, PO.addSimple PO.empty 1 5 = .ok q ∧ PO.PInv q ∧
      q.values.Perm (PO.mkWrapped PO.empty 1 5 [] [] :: PO.empty.values)) ∧
    PO.PInv PO.empty ∧
    ((PO.add PO.empty 4 0 [] [] false).bind
        (fun q => PO.add q 6 0 [4] [] false)).map PO.toValues = .ok [6, 4] ∧
    ((PO.add PO.empty 4 0 [] [] false).bind
        (fun q => PO.add q 6 0 [] [4] false)).map PO.toValues = .ok [4, 6] :=
  c4_priority_order_amended PO.empty 1 5 4 6 0 0
    ⟨by simp [PO.empty], by simp [PO.empty], by simp [PO.empty]⟩

/-! ## C2 — cycle termination and round-trip -/

/-- The count of descriptors outside the in-progress map only shrinks as
the map grows. -/
theorem missing_mono (c c' : List Rec.Desc) (sub : ∀ x ∈ c, x ∈ c') :
    Rec.missing c' ≤ Rec.missing c := by
  unfold Rec.missing
  have h1 : ∀ d : Rec.Desc, (if d ∈ c' then 0 else 1) ≤ (if d ∈ c then 0 else 1) := by
    intro d
    by_cases h : d ∈ c
    · simp [h, sub d h]
    · split <;> omega
  have := h1 .int
  have := h1 .optNode
  have := h1 .node
  omega

/-- Recording a fresh descriptor strictly shrinks the missing count. -/
theorem missing_cons_lt (d : Rec.Desc) (c : List Rec.Desc) (hd : d ∉ c) :
    Rec.missing (d :: c) < Rec.missing c := by
  cases d <;> simp [Rec.missing, List.mem_cons, hd]

/-- Termination of the recursion-safe build: any fuel exceeding the number
of descriptors not yet in the in-progress map suffices — the build always
returns a schema (cycles are cut by the in-progress map, which only ever
grows). -/
theorem buildD_total : ∀ (f : Nat) (c : List Rec.Desc) (d : Rec.Desc),
    Rec.missing c < f →
    ∃ s c', Rec.buildD f c d = some (s, c') ∧ ∀ x ∈ c, x ∈ c' := by
  intro f
  induction f with
  | zero => intro c d h; omega
  | succ f ih =>
    intro c d h
    by_cases hd : d ∈ c
    · exact ⟨.recRef d, c, by simp [Rec.buildD, hd], fun x hx => hx⟩
    · have hm : Rec.missing (d :: c) < f := by
        have := missing_cons_lt d c hd
        omega
      have hsub : ∀ x ∈ c, x ∈ d :: c := fun x hx => by simp [hx]
      cases d with
      | int =>
        exact ⟨.intS, .int :: c, by simp [Rec.buildD, hd, Rec.constructD], hsub⟩
      | optNode =>
        obtain ⟨s₁, c₁, h₁, sub₁⟩ := ih (.optNode :: c) .node hm
        refine ⟨.optS s₁, c₁, ?_, fun x hx => sub₁ x (hsub x hx)⟩
        simp [Rec.buildD, hd, Rec.constructD, h₁]
      | node =>
        obtain ⟨s₁, c₁, h₁, sub₁⟩ := ih (.node :: c) .int hm
        have hm₁ : Rec.missing c₁ < f :=
          lt_of_le_of_lt (missing_mono _ _ sub₁) hm
        obtain ⟨s₂, c₂, h₂, sub₂⟩ := ih c₁ .optNode hm₁
        refine ⟨.nodeS s₁ s₂, c₂, ?_,
          fun x hx => sub₂ x (sub₁ x (hsub x hx))⟩
        simp [Rec.buildD, hd, Rec.constructD, h₁, h₂]

/-- Unmarshaling is stable in the fuel parameter: once it produces a value,
any larger fuel produces the same value. -/
theorem unm_mono : ∀ (f₁ : Nat) (c : List Rec.Desc) (s : Rec.SchemaObj)
    (e : Rec.Elem) (r : Rec.UVal), Rec.unm f₁ c s e = some r →
    ∀ f₂, f₁ ≤ f₂ → Rec.unm f₂ c s e = some r := by
  intro f₁
  induction f₁ with
  | zero => intro c s e r h; simp [Rec.unm] at h
  | succ n ih =>
    intro c s e r h f₂ hle
    obtain ⟨g, rfl⟩ : ∃ g, f₂ = g + 1 := ⟨f₂ - 1, by omega⟩
    have hng : n ≤ g := by omega
    cases s with
    | intS =>
      cases e <;> simp only [Rec.unm] at h ⊢ <;> exact h
    | optS inner =>
      cases e with
      | null => simpa [Rec.unm] using h
      | int m =>
        simp only [Rec.unm] at h ⊢
        rcases hin : Rec.unm n c inner (.int m) with _ | uv
        · rw [hin] at h
          cases h
        · rw [hin] at h
          rw [ih c inner (.int m) uv hin g hng]
          exact h
      | str t =>
        simp only [Rec.unm] at h ⊢
        rcases hin : Rec.unm n c inner (.str t) with _ | uv
        · rw [hin] at h
          cases h
        · rw [hin] at h
          rw [ih c inner (.str t) uv hin g hng]
          exact h
      | map entries =>
        simp only [Rec.unm] at h ⊢
        rcases hin : Rec.unm n c inner (.map entries) with _ | uv
        · rw [hin] at h
          cases h
        · rw [hin] at h
          rw [ih c inner (.map entries) uv hin g hng]
          exact h
    | nodeS vs ns =>
      cases e with
      | int m => simp only [Rec.unm] at h ⊢; exact h
      | str t => simp only [Rec.unm] at h ⊢; exact h
      | null => simp only [Rec.unm] at h ⊢; exact h
      | map entries =>
        simp only [Rec.unm] at h ⊢
        rcases hv : SD.alist entries "value" with _ | ev
        · rw [hv] at h
          simp at h
        · rw [hv] at h
          rcases hn : SD.alist entries "next" with _ | en
          · rw [hn] at h
            simp at h
          · rw [hn] at h
            dsimp only at h ⊢
            rcases h₁ : Rec.unm n c vs ev with _ | u₁
            · rw [h₁] at h
              simp at h
            · rw [h₁] at h
              rcases h₂ : Rec.unm n c ns en with _ | u₂
              · rw [h₂] at h
                cases u₁ <;> simp at h
              · rw [h₂] at h
                rw [ih c vs ev u₁ h₁ g hng, ih c ns en u₂ h₂ g hng]
                exact h
    | recRef d =>
      simp only [Rec.unm] at h ⊢
      rcases hfo : Rec.forceD 4 c d with _ | p
      · rw [hfo] at h
        simp at h
      · rw [hfo] at h
        dsimp only at h ⊢
        exact ih p.2 p.1 e r h g hng

/-- Forcing the lazy placeholder for `node` against the post-resolution
in-progress map: the constructed structured schema refers back to the (still
in-progress) descriptors through new placeholders. -/
theorem forceN_eval : Rec.forceD 4 Rec.cacheN .node =
    some (.nodeS (.recRef .int) (.recRef .optNode), Rec.cacheN) := rfl

/-- Forcing the placeholder for `int`. -/
theorem forceI_eval : Rec.forceD 4 Rec.cacheN .int =
    some (.intS, Rec.cacheN) := rfl

/-- Forcing the placeholder for `Optional[Node]`. -/
theorem forceO_eval : Rec.forceD 4 Rec.cacheN .optNode =
    some (.optS (.recRef .node), Rec.cacheN) := rfl

/-- Round-trip through a placeholder handler: unmarshaling the marshaled
form of any finite node chain through `recRef node` (with enough fuel)
recovers the chain. -/
theorem rt_recRef_node (v : Rec.NodeVal) : ∀ f, 5 * Rec.nsize v ≤ f →
    Rec.unm f Rec.cacheN (.recRef .node) (Rec.marshalNode v) =
      some (.uNode v) := by
  induction v with
  | last n =>
    intro f hf
    obtain ⟨k, rfl⟩ : ∃ k, f = k + 5 :=
      ⟨f - 5, by simp [Rec.nsize] at hf; omega⟩
    simp [Rec.unm, forceN_eval, forceI_eval, forceO_eval, SD.alist,
      Rec.marshalNode, Rec.NodeVal.ofParts]
  | cons n m ih =>
    intro f hf
    obtain ⟨k, rfl⟩ : ∃ k, f = k + 5 :=
      ⟨f - 5, by simp [Rec.nsize] at hf; omega⟩
    have hk : 5 * Rec.nsize m ≤ k + 1 := by
      simp [Rec.nsize] at hf
      omega
    obtain ⟨l, hl⟩ : ∃ l, Rec.marshalNode m = .map l := by
      cases m <;> exact ⟨_, rfl⟩
    have hm2 : Rec.unm k Rec.cacheN
        (.nodeS (.recRef .int) (.recRef .optNode)) (.map l) =
          some (.uNode m) := by
      have hm := ih (k + 1) hk
      rw [hl] at hm
      simpa [Rec.unm, forceN_eval] using hm
    simp [Rec.unm, forceN_eval, forceI_eval, forceO_eval, SD.alist,
      Rec.marshalNode, Rec.NodeVal.ofParts, hl, hm2]

/-- Round-trip through the top-level built handler for `node`. -/
theorem rt_nodeSchema (v : Rec.NodeVal) : ∀ f, 5 * Rec.nsize v + 2 ≤ f →
    Rec.unm f Rec.cacheN Rec.nodeSchema (Rec.marshalNode v) =
      some (.uNode v) := by
  cases v with
  | last n =>
    intro f hf
    obtain ⟨k, rfl⟩ : ∃ k, f = k + 7 :=
      ⟨f - 7, by simp [Rec.nsize] at hf; omega⟩
    simp [Rec.unm, Rec.nodeSchema, forceN_eval, forceI_eval, forceO_eval,
      SD.alist, Rec.marshalNode, Rec.NodeVal.ofParts]
  | cons n m =>
    intro f hf
    obtain ⟨k, rfl⟩ : ∃ k, f = k + 3 :=
      ⟨f - 3, by simp [Rec.nsize] at hf; omega⟩
    have hk : 5 * Rec.nsize m ≤ k + 1 := by
      simp [Rec.nsize] at hf
      omega
    obtain ⟨l, hl⟩ : ∃ l, Rec.marshalNode m = .map l := by
      cases m <;> exact ⟨_, rfl⟩
    have hm2 : Rec.unm k Rec.cacheN
        (.nodeS (.recRef .int) (.recRef .optNode)) (.map l) =
          some (.uNode m) := by
      have hm := rt_recRef_node m (k + 1) hk
      rw [hl] at hm
      simpa [Rec.unm, forceN_eval] using hm
    simp [Rec.unm, Rec.nodeSchema, forceN_eval, forceO_eval, SD.alist,
      Rec.marshalNode, hl, hm2, Rec.NodeVal.ofParts]

/-- C2: cycle termination of the recursion-safe resolution.  (1) For any
state of the in-progress map and any descriptor — in particular the
self-referential `node`, whose resolution transitively re-enters `node` —
the build terminates: any fuel above the number of descriptors not yet in
progress suffices, because every nested resolution either hits the
in-progress map (returning the lazy placeholder
`RecursiveReferenceUnmarshalSchema`) or strictly shrinks the set of
descriptors outside the map.  (2) Concretely, resolving `node` from a clean
state yields the handler `nodeS intS (optS (recRef node))`: the re-entrant
resolution of `node` found `node` in the in-progress map and received the
placeholder `recRef node`.  (3) The resulting handler round-trips every
finite value of the recursive shape: unmarshaling the marshaled form of any
node chain (with sufficient fuel, which exists for every finite value)
recovers the value, the placeholders forwarding to the real handler by
forcing their lazily stored selection. -/
theorem c2_cycle_termination (f : Nat) (c : List Rec.Desc) (d : Rec.Desc)
    (v : Rec.NodeVal) (g : Nat) (hf : Rec.missing c < f)
    (hg : 5 * Rec.nsize v + 2 ≤ g) :
    (∃ s c', Rec.buildD f c d = some (s, c') ∧ ∀ x ∈ c, x ∈ c') ∧
    Rec.buildD 4 [] .node = some (Rec.nodeSchema, Rec.cacheN) ∧
    Rec.unm g Rec.cacheN Rec.nodeSchema (Rec.marshalNode v) =
      some (.uNode v) :=
  ⟨buildD_total f c d hf, rfl, rt_nodeSchema v g hg⟩

/-- Witness for C2 at a concrete two-node chain. -/
theorem c2_cycle_witness :
    (∃ s c', Rec.buildD 4 [] .node = some (s, c') ∧
      ∀ x ∈ ([] : List Rec.Desc), x ∈ c') ∧
    Rec.buildD 4 [] .node = some (Rec.nodeSchema, Rec.cacheN) ∧
    Rec.unm 50 Rec.cacheN Rec.nodeSchema
        (Rec.marshalNode (.cons 2 (.last 3))) =
      some (.uNode (.cons 2 (.last 3))) :=
  c2_cycle_termination 4 [] .node (.cons 2 (.last 3)) 50 (by decide)
    (by decide)
